import Mathlib

/-!
Verification of the local line-matching and scoring engine of the
off-book repository: the word-level Wagner–Fischer aligner and scorer in
`src/lib/compare.ts`, and the fast similarity helpers (`wordSimilarity`,
`pickBestAlternative`) in `src/app/script/[id]/practice.tsx`.

Modelling conventions:
* JS strings are Lean `String`s; character classes (`\w`, `\s`) are modelled
  over ASCII, which covers every input appearing in the claims.
* `Math.round((matchCount / n) * 100)` is modelled with exact rational
  rounding (round half up), `(200 * matchCount + n) / (2 * n)` in `Nat`
  arithmetic, which agrees with the double-precision computation on all
  realistic line lengths.
* The mutable dp table of `align` is modelled row by row (`dpRow`), and the
  backtracking `while` loop that `unshift`s ops is modelled by the
  structurally equivalent recursion `tracebackGo` that appends the op for
  cell (i, j) after the ops for the remaining prefix.
-/

namespace OffBook

/-- AlignOp mirrors the tagged union in `src/lib/compare.ts`
(`match` is a Lean keyword, so that constructor is called `matchOp`). -/
inductive AlignOp where
  | matchOp (spoken correct : String)
  | sub (spoken correct : String)
  | ins (spoken : String)
  | del (correct : String)
deriving DecidableEq, Repr

/-- True exactly on `match` alignment ops. -/
def AlignOp.isMatch : AlignOp → Bool
  | .matchOp _ _ => true
  | _ => false

/-- Spoken-side token contributed by one op (`match`, `sub`, `ins`). -/
def AlignOp.spokenTok : AlignOp → Option String
  | .matchOp s _ => some s
  | .sub s _ => some s
  | .ins s => some s
  | .del _ => none

/-- Correct-side token contributed by one op (`match`, `sub`, `del`). -/
def AlignOp.correctTok : AlignOp → Option String
  | .matchOp _ c => some c
  | .sub _ c => some c
  | .ins _ => none
  | .del c => some c

/-- Spoken-side reconstruction of an op list. -/
def spokenOf (ops : List AlignOp) : List String :=
  ops.filterMap AlignOp.spokenTok

/-- Correct-side reconstruction of an op list. -/
def correctOf (ops : List AlignOp) : List String :=
  ops.filterMap AlignOp.correctTok

/-- Cost of an alignment: the number of non-`match` ops (substitution,
insertion and deletion each cost 1, a match costs 0). -/
def alignCost (ops : List AlignOp) : Nat :=
  (ops.filter fun o => !o.isMatch).length

/-- A valid alignment between spoken tokens `a` and correct tokens `b`:
its two projections reconstruct `a` and `b`, and `match` ops only align
equal tokens. -/
def IsAlignment (ops : List AlignOp) (a b : List String) : Prop :=
  spokenOf ops = a ∧ correctOf ops = b ∧
    ∀ s c, AlignOp.matchOp s c ∈ ops → s = c

/-- Fills one dp row after the leading border cell, walking along `b`:
`prev` is the suffix of the previous row starting at column j-1 and `left`
is the value just written at column j-1 of the current row.  Mirrors the
inner `for (let j = 1; ...)` loop of `align`. -/
def rowGo (ai : String) : List String → List Nat → Nat → List Nat
  | [], _, _ => []
  | bj :: bs, prev, left =>
    let d := prev.headD 0
    let u := prev.tail.headD 0
    let cur := if ai = bj then d else 1 + min d (min u left)
    cur :: rowGo ai bs prev.tail cur

/-- Row `i` of the Wagner–Fischer table of `align` (length `b.length + 1`).
Row 0 is the base row `0, 1, ..., n`; row `i+1` starts with the border
value `i+1` and is filled by `rowGo`. -/
def dpRow (a b : List String) : Nat → List Nat
  | 0 => List.range (b.length + 1)
  | i + 1 => (i + 1) :: rowGo (a.getD i "") b (dpRow a b i) (i + 1)

/-- Value `dp[i][j]` of the table built by `align`. -/
def dpv (a b : List String) (i j : Nat) : Nat :=
  (dpRow a b i).getD j 0

/-- Backtracking walk of `align`, from cell (i, j) down to (0, 0).  The JS
loop `unshift`s the op chosen at the current cell and decrements the
indices, so the op for cell (i, j) ends up after the ops for the smaller
prefix: `tracebackGo i j = tracebackGo i' j' ++ [op at (i, j)]`.
When `j = 0` but `i > 0` the source's insertion guard
`dp[i][j] === dp[i-1][j] + 1` is `i = (i-1) + 1`, which always holds, and
the match/substitution guards fail (they require `j > 0`), so the loop
always takes the insertion branch; symmetrically for `i = 0 < j` only the
deletion branch is reachable. -/
def tracebackFuel (a b : List String) : Nat → Nat → Nat → List AlignOp
  | 0, _, _ => []
  | _ + 1, 0, 0 => []
  | fuel + 1, i + 1, 0 =>
    tracebackFuel a b fuel i 0 ++ [AlignOp.ins (a.getD i "")]
  | fuel + 1, 0, j + 1 =>
    tracebackFuel a b fuel 0 j ++ [AlignOp.del (b.getD j "")]
  | fuel + 1, i + 1, j + 1 =>
    if a.getD i "" = b.getD j "" then
      tracebackFuel a b fuel i j ++ [AlignOp.matchOp (a.getD i "") (b.getD j "")]
    else if dpv a b (i + 1) (j + 1) = dpv a b i j + 1 then
      tracebackFuel a b fuel i j ++ [AlignOp.sub (a.getD i "") (b.getD j "")]
    else if dpv a b (i + 1) (j + 1) = dpv a b i (j + 1) + 1 then
      tracebackFuel a b fuel i (j + 1) ++ [AlignOp.ins (a.getD i "")]
    else
      tracebackFuel a b fuel (i + 1) j ++ [AlignOp.del (b.getD j "")]

/-- Backtracking walk from cell (i, j); every loop iteration decreases
i + j by at least one, so fuel i + j always suffices and `tracebackGo`
satisfies the recursion of the JS loop (equations below). -/
def tracebackGo (a b : List String) (i j : Nat) : List AlignOp :=
  tracebackFuel a b (i + j) i j

/-- Wagner–Fischer word-level alignment, `align` of `src/lib/compare.ts`. -/
def align (a b : List String) : List AlignOp :=
  tracebackGo a b a.length b.length

theorem tracebackFuel_congr (a b : List String) :
    ∀ f₁ f₂ i j, i + j ≤ f₁ → i + j ≤ f₂ →
      tracebackFuel a b f₁ i j = tracebackFuel a b f₂ i j := by
  intro f₁
  induction f₁ with
  | zero =>
    intro f₂ i j h1 h2
    have hi : i = 0 := by omega
    have hj : j = 0 := by omega
    subst hi hj
    cases f₂ <;> rfl
  | succ f₁ ih =>
    intro f₂ i j h1 h2
    match i, j with
    | 0, 0 => cases f₂ <;> rfl
    | i + 1, 0 =>
      match f₂, h2 with
      | f₂ + 1, h2 =>
        simp only [tracebackFuel]
        rw [ih f₂ i 0 (by omega) (by omega)]
    | 0, j + 1 =>
      match f₂, h2 with
      | f₂ + 1, h2 =>
        simp only [tracebackFuel]
        rw [ih f₂ 0 j (by omega) (by omega)]
    | i + 1, j + 1 =>
      match f₂, h2 with
      | f₂ + 1, h2 =>
        simp only [tracebackFuel]
        split_ifs
        · rw [ih f₂ i j (by omega) (by omega)]
        · rw [ih f₂ i j (by omega) (by omega)]
        · rw [ih f₂ i (j + 1) (by omega) (by omega)]
        · rw [ih f₂ (i + 1) j (by omega) (by omega)]

theorem tracebackGo_zero_zero (a b : List String) : tracebackGo a b 0 0 = [] :=
  rfl

theorem tracebackGo_succ_zero (a b : List String) (i : Nat) :
    tracebackGo a b (i + 1) 0 =
      tracebackGo a b i 0 ++ [AlignOp.ins (a.getD i "")] := rfl

theorem tracebackGo_zero_succ (a b : List String) (j : Nat) :
    tracebackGo a b 0 (j + 1) =
      tracebackGo a b 0 j ++ [AlignOp.del (b.getD j "")] := rfl

theorem tracebackGo_succ_succ (a b : List String) (i j : Nat) :
    tracebackGo a b (i + 1) (j + 1) =
      (if a.getD i "" = b.getD j "" then
        tracebackGo a b i j ++ [AlignOp.matchOp (a.getD i "") (b.getD j "")]
      else if dpv a b (i + 1) (j + 1) = dpv a b i j + 1 then
        tracebackGo a b i j ++ [AlignOp.sub (a.getD i "") (b.getD j "")]
      else if dpv a b (i + 1) (j + 1) = dpv a b i (j + 1) + 1 then
        tracebackGo a b i (j + 1) ++ [AlignOp.ins (a.getD i "")]
      else
        tracebackGo a b (i + 1) j ++ [AlignOp.del (b.getD j "")]) := by
  show tracebackFuel a b ((i + 1) + j + 1) (i + 1) (j + 1) = _
  simp only [tracebackFuel]
  unfold tracebackGo
  split_ifs
  · rw [tracebackFuel_congr a b (i + 1 + j) (i + j) i j (by omega) (by omega)]
  · rw [tracebackFuel_congr a b (i + 1 + j) (i + j) i j (by omega) (by omega)]
  · rw [tracebackFuel_congr a b (i + 1 + j) (i + (j + 1)) i (j + 1)
      (by omega) (by omega)]
  · rw [tracebackFuel_congr a b (i + 1 + j) (i + 1 + j) (i + 1) j
      (by omega) (by omega)]

theorem rowGo_length (ai : String) (bs : List String) (prev : List Nat) (left : Nat) :
    (rowGo ai bs prev left).length = bs.length := by
  induction bs generalizing prev left with
  | nil => rfl
  | cons bj bs ih => simp [rowGo, ih]

theorem dpRow_length (a b : List String) (i : Nat) :
    (dpRow a b i).length = b.length + 1 := by
  cases i with
  | zero => simp [dpRow]
  | succ i => simp [dpRow, rowGo_length]

theorem dpv_zero (a b : List String) (j : Nat) (hj : j ≤ b.length) :
    dpv a b 0 j = j := by
  simp [dpv, dpRow, List.getD_eq_getElem?_getD,
    List.getElem?_range (Nat.lt_succ_of_le hj)]

theorem dpv_succ_zero (a b : List String) (i : Nat) :
    dpv a b (i + 1) 0 = i + 1 := rfl

theorem rowGo_getD (ai : String) (bs : List String) (prev : List Nat)
    (left : Nat) (j : Nat) (hj : j < bs.length)
    (hp : prev.length = bs.length + 1) :
    (rowGo ai bs prev left).getD j 0 =
      if ai = bs.getD j "" then prev.getD j 0
      else 1 + min (prev.getD j 0)
        (min (prev.getD (j + 1) 0) ((left :: rowGo ai bs prev left).getD j 0)) := by
  induction bs generalizing prev left j with
  | nil => simp at hj
  | cons bj bs ih =>
    match prev with
    | p0 :: prev =>
      have hp' : prev.length = bs.length + 1 := by
        simpa using hp
      cases j with
      | zero =>
        cases prev with
        | nil => simp at hp'
        | cons u0 prev => simp [rowGo]
      | succ j =>
        have hj' : j < bs.length := by simpa using hj
        have h := ih prev (if ai = bj then (p0 :: prev).headD 0
            else 1 + min ((p0 :: prev).headD 0)
              (min ((p0 :: prev).tail.headD 0) left)) j hj' hp'
        simpa [rowGo, List.getD_cons_succ] using h

theorem dpv_succ_succ (a b : List String) (i j : Nat) (hj : j < b.length) :
    dpv a b (i + 1) (j + 1) =
      if a.getD i "" = b.getD j "" then dpv a b i j
      else 1 + min (dpv a b i j) (min (dpv a b i (j + 1)) (dpv a b (i + 1) j)) := by
  have h := rowGo_getD (a.getD i "") b (dpRow a b i) (i + 1) j hj
    (dpRow_length a b i)
  simpa [dpv, dpRow, List.getD_cons_succ] using h

theorem dpv_zero_col (a b : List String) (i : Nat) : dpv a b i 0 = i := by
  cases i with
  | zero => exact dpv_zero a b 0 (Nat.zero_le _)
  | succ i => exact dpv_succ_zero a b i

/-- Adjacent cells of the dp table differ by at most one, in both
directions along both axes. -/
theorem dpv_step_all (a b : List String) :
    ∀ n i j, i + j = n →
      ((j ≤ b.length →
          dpv a b (i + 1) j ≤ dpv a b i j + 1 ∧
            dpv a b i j ≤ dpv a b (i + 1) j + 1) ∧
       (j + 1 ≤ b.length →
          dpv a b i (j + 1) ≤ dpv a b i j + 1 ∧
            dpv a b i j ≤ dpv a b i (j + 1) + 1)) := by
  intro n
  induction n using Nat.strong_induction_on with
  | _ n ih =>
    intro i j hij
    constructor
    · intro hj
      cases j with
      | zero =>
        simp only [dpv_zero_col]
        omega
      | succ j =>
        have hjlt : j < b.length := by omega
        have hrec := dpv_succ_succ a b i j hjlt
        have Hih := (ih (i + j) (by omega) i j rfl).2 (by omega)
        have hRV := ((ih (i + j) (by omega) i j rfl).1 (by omega)).2
        by_cases htok : a.getD i "" = b.getD j ""
        · rw [hrec, if_pos htok]
          exact ⟨Hih.2, Hih.1⟩
        · rw [hrec, if_neg htok]
          constructor
          · have : min (dpv a b i j) (min (dpv a b i (j + 1)) (dpv a b (i + 1) j)) ≤
                dpv a b i (j + 1) :=
              le_trans (min_le_right _ _) (min_le_left _ _)
            omega
          · have hH := Hih.1
            simp only [Nat.min_def]
            split_ifs <;> omega
    · intro hj
      cases i with
      | zero =>
        rw [dpv_zero a b (j + 1) hj, dpv_zero a b j (by omega)]
        omega
      | succ i =>
        have hjlt : j < b.length := by omega
        have hrec := dpv_succ_succ a b i j hjlt
        have Hih := (ih (i + j) (by omega) i j rfl).1 (by omega)
        have hRH := ((ih (i + j) (by omega) i j rfl).2 (by omega)).2
        by_cases htok : a.getD i "" = b.getD j ""
        · rw [hrec, if_pos htok]
          exact ⟨Hih.2, Hih.1⟩
        · rw [hrec, if_neg htok]
          constructor
          · have : min (dpv a b i j) (min (dpv a b i (j + 1)) (dpv a b (i + 1) j)) ≤
                dpv a b (i + 1) j :=
              le_trans (min_le_right _ _) (min_le_right _ _)
            omega
          · have hV := Hih.1
            simp only [Nat.min_def]
            split_ifs <;> omega

/-- Moving one row down costs at most one more edit. -/
theorem dpv_row_step (a b : List String) (i j : Nat) (hj : j ≤ b.length) :
    dpv a b (i + 1) j ≤ dpv a b i j + 1 :=
  ((dpv_step_all a b (i + j) i j rfl).1 hj).1

/-- Moving one column right costs at most one more edit. -/
theorem dpv_col_step (a b : List String) (i j : Nat) (hj : j + 1 ≤ b.length) :
    dpv a b i (j + 1) ≤ dpv a b i j + 1 :=
  ((dpv_step_all a b (i + j) i j rfl).2 hj).1

theorem getD_congr_of_take_succ {α : Type} (l₁ l₂ : List α) (i : Nat) (d : α)
    (h : l₁.take (i + 1) = l₂.take (i + 1)) : l₁.getD i d = l₂.getD i d := by
  have e1 : (l₁.take (i + 1))[i]? = l₁[i]? := by
    rw [List.getElem?_take]
    simp
  have e2 : (l₂.take (i + 1))[i]? = l₂[i]? := by
    rw [List.getElem?_take]
    simp
  have h1 : l₁[i]? = l₂[i]? := by rw [← e1, ← e2, h]
  simp [List.getD_eq_getElem?_getD, h1]

theorem take_of_take_succ {α : Type} (l₁ l₂ : List α) (i : Nat)
    (h : l₁.take (i + 1) = l₂.take (i + 1)) : l₁.take i = l₂.take i := by
  have := congrArg (List.take i) h
  simpa [List.take_take, Nat.min_eq_left (Nat.le_succ i)] using this

/-- Entry (i, j) of the dp table only depends on the first i spoken tokens
and the first j correct tokens. -/
theorem dpv_congr_take :
    ∀ n (i j : Nat) (a₁ a₂ b₁ b₂ : List String), i + j = n →
      i ≤ a₁.length → i ≤ a₂.length → j ≤ b₁.length → j ≤ b₂.length →
      a₁.take i = a₂.take i → b₁.take j = b₂.take j →
      dpv a₁ b₁ i j = dpv a₂ b₂ i j := by
  intro n
  induction n using Nat.strong_induction_on with
  | _ n ih =>
    intro i j a₁ a₂ b₁ b₂ hij hi1 hi2 hj1 hj2 hA hB
    match i, j with
    | i, 0 => rw [dpv_zero_col, dpv_zero_col]
    | 0, j + 1 => rw [dpv_zero a₁ b₁ (j + 1) hj1, dpv_zero a₂ b₂ (j + 1) hj2]
    | i + 1, j + 1 =>
      have htokA : a₁.getD i "" = a₂.getD i "" :=
        getD_congr_of_take_succ a₁ a₂ i "" hA
      have htokB : b₁.getD j "" = b₂.getD j "" :=
        getD_congr_of_take_succ b₁ b₂ j "" hB
      have hA' : a₁.take i = a₂.take i := take_of_take_succ a₁ a₂ i hA
      have hB' : b₁.take j = b₂.take j := take_of_take_succ b₁ b₂ j hB
      have e00 : dpv a₁ b₁ i j = dpv a₂ b₂ i j :=
        ih (i + j) (by omega) i j a₁ a₂ b₁ b₂ rfl (by omega) (by omega)
          (by omega) (by omega) hA' hB'
      have e01 : dpv a₁ b₁ i (j + 1) = dpv a₂ b₂ i (j + 1) :=
        ih (i + j + 1) (by omega) i (j + 1) a₁ a₂ b₁ b₂ rfl (by omega)
          (by omega) hj1 hj2 hA' hB
      have e10 : dpv a₁ b₁ (i + 1) j = dpv a₂ b₂ (i + 1) j :=
        ih (i + 1 + j) (by omega) (i + 1) j a₁ a₂ b₁ b₂ rfl hi1 hi2
          (by omega) (by omega) hA hB'
      rw [dpv_succ_succ a₁ b₁ i j (by omega), dpv_succ_succ a₂ b₂ i j (by omega),
        htokA, htokB, e00, e01, e10]

@[simp] theorem spokenOf_append (xs ys : List AlignOp) :
    spokenOf (xs ++ ys) = spokenOf xs ++ spokenOf ys := by
  simp [spokenOf]

@[simp] theorem correctOf_append (xs ys : List AlignOp) :
    correctOf (xs ++ ys) = correctOf xs ++ correctOf ys := by
  simp [correctOf]

@[simp] theorem alignCost_append (xs ys : List AlignOp) :
    alignCost (xs ++ ys) = alignCost xs + alignCost ys := by
  simp [alignCost]

theorem take_succ_getD {α : Type} (l : List α) (i : Nat) (d : α)
    (h : i < l.length) : l.take (i + 1) = l.take i ++ [l.getD i d] := by
  rw [List.take_succ, List.getElem?_eq_getElem h,
    List.getD_eq_getElem?_getD, List.getElem?_eq_getElem h]
  rfl

/-- Cost of the backtracked op list below cell (i, j) is exactly the dp
value of that cell. -/
theorem tracebackGo_cost (a b : List String) :
    ∀ n i j, i + j = n → j ≤ b.length →
      alignCost (tracebackGo a b i j) = dpv a b i j := by
  intro n
  induction n using Nat.strong_induction_on with
  | _ n ih =>
    intro i j hij hj
    match i, j with
    | 0, 0 =>
      rw [tracebackGo_zero_zero, dpv_zero_col]
      rfl
    | i + 1, 0 =>
      rw [tracebackGo_succ_zero, alignCost_append,
        ih i (by omega) i 0 rfl (by omega), dpv_zero_col, dpv_zero_col]
      rfl
    | 0, j + 1 =>
      rw [tracebackGo_zero_succ, alignCost_append,
        ih j (by omega) 0 j (by omega) (by omega),
        dpv_zero a b j (by omega), dpv_zero a b (j + 1) hj]
      rfl
    | i + 1, j + 1 =>
      have hjlt : j < b.length := by omega
      have hrec := dpv_succ_succ a b i j hjlt
      rw [tracebackGo_succ_succ]
      by_cases htok : a.getD i "" = b.getD j ""
      · rw [if_pos htok, alignCost_append,
          ih (i + j) (by omega) i j rfl (by omega), hrec, if_pos htok]
        rfl
      · rw [if_neg htok]
        by_cases hsub : dpv a b (i + 1) (j + 1) = dpv a b i j + 1
        · rw [if_pos hsub, alignCost_append,
            ih (i + j) (by omega) i j rfl (by omega), hsub]
          rfl
        · rw [if_neg hsub]
          by_cases hins : dpv a b (i + 1) (j + 1) = dpv a b i (j + 1) + 1
          · rw [if_pos hins, alignCost_append,
              ih (i + j + 1) (by omega) i (j + 1) rfl hj, hins]
            rfl
          · rw [if_neg hins, alignCost_append,
              ih (i + 1 + j) (by omega) (i + 1) j rfl (by omega)]
            have hdel : dpv a b (i + 1) (j + 1) = dpv a b (i + 1) j + 1 := by
              rw [if_neg htok] at hrec
              simp only [Nat.min_def] at hrec
              split_ifs at hrec <;> omega
            rw [hdel]
            rfl

@[simp] theorem spokenOf_matchOp (s c : String) :
    spokenOf [AlignOp.matchOp s c] = [s] := rfl

@[simp] theorem spokenOf_sub (s c : String) :
    spokenOf [AlignOp.sub s c] = [s] := rfl

@[simp] theorem spokenOf_ins (s : String) : spokenOf [AlignOp.ins s] = [s] := rfl

@[simp] theorem spokenOf_del (c : String) : spokenOf [AlignOp.del c] = [] := rfl

@[simp] theorem correctOf_matchOp (s c : String) :
    correctOf [AlignOp.matchOp s c] = [c] := rfl

@[simp] theorem correctOf_sub (s c : String) :
    correctOf [AlignOp.sub s c] = [c] := rfl

@[simp] theorem correctOf_ins (s : String) : correctOf [AlignOp.ins s] = [] := rfl

@[simp] theorem correctOf_del (c : String) : correctOf [AlignOp.del c] = [c] := rfl

/-- The two projections of the backtracked op list below cell (i, j)
reconstruct the first i spoken and first j correct tokens. -/
theorem tracebackGo_recon (a b : List String) :
    ∀ n i j, i + j = n → i ≤ a.length → j ≤ b.length →
      spokenOf (tracebackGo a b i j) = a.take i ∧
        correctOf (tracebackGo a b i j) = b.take j := by
  intro n
  induction n using Nat.strong_induction_on with
  | _ n ih =>
    intro i j hij hi hj
    match i, j with
    | 0, 0 =>
      rw [tracebackGo_zero_zero]
      exact ⟨rfl, rfl⟩
    | i + 1, 0 =>
      obtain ⟨hs, hc⟩ := ih i (by omega) i 0 (by omega) (by omega) (by omega)
      rw [tracebackGo_succ_zero]
      refine ⟨?_, ?_⟩
      · rw [spokenOf_append, hs, take_succ_getD a i "" (by omega)]
        simp
      · rw [correctOf_append, hc]
        simp
    | 0, j + 1 =>
      obtain ⟨hs, hc⟩ := ih j (by omega) 0 j (by omega) (by omega) (by omega)
      rw [tracebackGo_zero_succ]
      refine ⟨?_, ?_⟩
      · rw [spokenOf_append, hs]
        simp
      · rw [correctOf_append, hc, take_succ_getD b j "" (by omega)]
        simp
    | i + 1, j + 1 =>
      obtain ⟨hs00, hc00⟩ :=
        ih (i + j) (by omega) i j (by omega) (by omega) (by omega)
      obtain ⟨hs01, hc01⟩ :=
        ih (i + j + 1) (by omega) i (j + 1) (by omega) (by omega) hj
      obtain ⟨hs10, hc10⟩ :=
        ih (i + 1 + j) (by omega) (i + 1) j (by omega) hi (by omega)
      have hta := take_succ_getD a i "" (by omega)
      have htb := take_succ_getD b j "" (by omega)
      rw [tracebackGo_succ_succ]
      split
      · refine ⟨?_, ?_⟩
        · rw [spokenOf_append, hs00, hta]
          simp
        · rw [correctOf_append, hc00, htb]
          simp
      · split
        · refine ⟨?_, ?_⟩
          · rw [spokenOf_append, hs00, hta]
            simp
          · rw [correctOf_append, hc00, htb]
            simp
        · split
          · refine ⟨?_, ?_⟩
            · rw [spokenOf_append, hs01, hta]
              simp
            · rw [correctOf_append, hc01]
              simp
          · refine ⟨?_, ?_⟩
            · rw [spokenOf_append, hs10]
              simp
            · rw [correctOf_append, hc10, htb]
              simp

/-- Every `match` op produced by the backtracking walk aligns equal
tokens (the match branch fires only when the tokens are equal). -/
theorem tracebackGo_match_eq (a b : List String) :
    ∀ n i j, i + j = n → ∀ s c,
      AlignOp.matchOp s c ∈ tracebackGo a b i j → s = c := by
  intro n
  induction n using Nat.strong_induction_on with
  | _ n ih =>
    intro i j hij s c hmem
    match i, j with
    | 0, 0 =>
      rw [tracebackGo_zero_zero] at hmem
      simp at hmem
    | i + 1, 0 =>
      rw [tracebackGo_succ_zero, List.mem_append] at hmem
      rcases hmem with h | h
      · exact ih i (by omega) i 0 rfl s c h
      · simp at h
    | 0, j + 1 =>
      rw [tracebackGo_zero_succ, List.mem_append] at hmem
      rcases hmem with h | h
      · exact ih j (by omega) 0 j (by omega) s c h
      · simp at h
    | i + 1, j + 1 =>
      rw [tracebackGo_succ_succ] at hmem
      split at hmem
      · rw [List.mem_append] at hmem
        rcases hmem with h | h
        · exact ih (i + j) (by omega) i j (by omega) s c h
        · rename_i htok
          simp only [List.mem_singleton, AlignOp.matchOp.injEq] at h
          rw [h.1, h.2]
          exact htok
      · split at hmem
        · rw [List.mem_append] at hmem
          rcases hmem with h | h
          · exact ih (i + j) (by omega) i j (by omega) s c h
          · simp at h
        · split at hmem
          · rw [List.mem_append] at hmem
            rcases hmem with h | h
            · exact ih (i + j + 1) (by omega) i (j + 1) (by omega) s c h
            · simp at h
          · rw [List.mem_append] at hmem
            rcases hmem with h | h
            · exact ih (i + 1 + j) (by omega) (i + 1) j (by omega) s c h
            · simp at h

/-- The op list returned by `align` is a valid alignment of its inputs. -/
theorem align_isAlignment (a b : List String) : IsAlignment (align a b) a b := by
  obtain ⟨hs, hc⟩ := tracebackGo_recon a b (a.length + b.length)
    a.length b.length rfl le_rfl le_rfl
  refine ⟨?_, ?_, ?_⟩
  · rw [align, hs, List.take_length]
  · rw [align, hc, List.take_length]
  · exact fun s c h =>
      tracebackGo_match_eq a b (a.length + b.length) a.length b.length rfl s c h

/-- Cost of the alignment returned by `align` is the bottom-right dp value. -/
theorem align_cost_eq_dpv (a b : List String) :
    alignCost (align a b) = dpv a b a.length b.length :=
  tracebackGo_cost a b (a.length + b.length) a.length b.length rfl le_rfl

/-- Optimality half of Wagner–Fischer: the bottom-right dp value is a
lower bound on the cost of every valid alignment of a and b.  Proved by
peeling the last op, which matches the recurrence's orientation. -/
theorem dpv_le_alignCost (ops : List AlignOp) :
    ∀ a b : List String, IsAlignment ops a b →
      dpv a b a.length b.length ≤ alignCost ops := by
  induction ops using List.reverseRecOn with
  | nil =>
    intro a b h
    obtain ⟨h1, h2, -⟩ := h
    have ha : a = [] := h1.symm
    have hb : b = [] := h2.symm
    subst ha hb
    simp [dpv_zero_col, alignCost]
  | append_singleton ops op ih =>
    intro a b h
    obtain ⟨h1, h2, h3⟩ := h
    have h3' : ∀ s c, AlignOp.matchOp s c ∈ ops → s = c := fun s c hm =>
      h3 s c (List.mem_append_left _ hm)
    have hia : IsAlignment ops (spokenOf ops) (correctOf ops) := ⟨rfl, rfl, h3'⟩
    have hbound := ih (spokenOf ops) (correctOf ops) hia
    cases op with
    | matchOp s c =>
      have hsc : s = c := h3 s c (List.mem_append_right _ (by simp))
      have ha : a = spokenOf ops ++ [s] := by rw [← h1, spokenOf_append, spokenOf_matchOp]
      have hb : b = correctOf ops ++ [c] := by rw [← h2, correctOf_append, correctOf_matchOp]
      subst ha hb
      rw [alignCost_append]
      have hla : (spokenOf ops ++ [s]).length = (spokenOf ops).length + 1 := by simp
      have hlb : (correctOf ops ++ [c]).length = (correctOf ops).length + 1 := by simp
      rw [hla, hlb, dpv_succ_succ _ _ _ _ (by simp)]
      have htoks : (spokenOf ops ++ [s]).getD (spokenOf ops).length "" = s := by
        simp [List.getD_eq_getElem?_getD, List.getElem?_concat_length]
      have htokc : (correctOf ops ++ [c]).getD (correctOf ops).length "" = c := by
        simp [List.getD_eq_getElem?_getD, List.getElem?_concat_length]
      rw [htoks, htokc, if_pos hsc]
      have hcongr : dpv (spokenOf ops ++ [s]) (correctOf ops ++ [c])
          (spokenOf ops).length (correctOf ops).length =
          dpv (spokenOf ops) (correctOf ops)
            (spokenOf ops).length (correctOf ops).length :=
        dpv_congr_take ((spokenOf ops).length + (correctOf ops).length)
          _ _ _ _ _ _ rfl (by simp) le_rfl (by simp) le_rfl
          ((List.take_left _ _).trans (List.take_length _).symm)
          ((List.take_left _ _).trans (List.take_length _).symm)
      rw [hcongr]
      have : alignCost [AlignOp.matchOp s c] = 0 := rfl
      omega
    | sub s c =>
      have ha : a = spokenOf ops ++ [s] := by rw [← h1, spokenOf_append, spokenOf_sub]
      have hb : b = correctOf ops ++ [c] := by rw [← h2, correctOf_append, correctOf_sub]
      subst ha hb
      rw [alignCost_append]
      have hla : (spokenOf ops ++ [s]).length = (spokenOf ops).length + 1 := by simp
      have hlb : (correctOf ops ++ [c]).length = (correctOf ops).length + 1 := by simp
      rw [hla, hlb, dpv_succ_succ _ _ _ _ (by simp)]
      have hcongr : dpv (spokenOf ops ++ [s]) (correctOf ops ++ [c])
          (spokenOf ops).length (correctOf ops).length =
          dpv (spokenOf ops) (correctOf ops)
            (spokenOf ops).length (correctOf ops).length :=
        dpv_congr_take ((spokenOf ops).length + (correctOf ops).length)
          _ _ _ _ _ _ rfl (by simp) le_rfl (by simp) le_rfl
          ((List.take_left _ _).trans (List.take_length _).symm)
          ((List.take_left _ _).trans (List.take_length _).symm)
      have hcost : alignCost [AlignOp.sub s c] = 1 := rfl
      split
      · rw [hcongr]
        omega
      · have hmin : min (dpv (spokenOf ops ++ [s]) (correctOf ops ++ [c])
              (spokenOf ops).length (correctOf ops).length)
            (min (dpv (spokenOf ops ++ [s]) (correctOf ops ++ [c])
                (spokenOf ops).length ((correctOf ops).length + 1))
              (dpv (spokenOf ops ++ [s]) (correctOf ops ++ [c])
                ((spokenOf ops).length + 1) (correctOf ops).length)) ≤
            dpv (spokenOf ops ++ [s]) (correctOf ops ++ [c])
              (spokenOf ops).length (correctOf ops).length :=
          min_le_left _ _

        rw [hcongr] at hmin
        omega
    | ins s =>
      have ha : a = spokenOf ops ++ [s] := by rw [← h1, spokenOf_append, spokenOf_ins]
      have hb : b = correctOf ops := by rw [← h2, correctOf_append, correctOf_ins, List.append_nil]
      subst ha hb
      rw [alignCost_append]
      have hla : (spokenOf ops ++ [s]).length = (spokenOf ops).length + 1 := by simp
      rw [hla]
      have hstep := dpv_row_step (spokenOf ops ++ [s]) (correctOf ops)
        (spokenOf ops).length (correctOf ops).length le_rfl
      have hcongr : dpv (spokenOf ops ++ [s]) (correctOf ops)
          (spokenOf ops).length (correctOf ops).length =
          dpv (spokenOf ops) (correctOf ops)
            (spokenOf ops).length (correctOf ops).length :=
        dpv_congr_take ((spokenOf ops).length + (correctOf ops).length)
          _ _ _ _ _ _ rfl (by simp) le_rfl le_rfl le_rfl
          ((List.take_left _ _).trans (List.take_length _).symm) rfl
      have hcost : alignCost [AlignOp.ins s] = 1 := rfl
      rw [hcongr] at hstep
      omega
    | del c =>
      have ha : a = spokenOf ops := by rw [← h1, spokenOf_append, spokenOf_del, List.append_nil]
      have hb : b = correctOf ops ++ [c] := by rw [← h2, correctOf_append, correctOf_del]
      subst ha hb
      rw [alignCost_append]
      have hlb : (correctOf ops ++ [c]).length = (correctOf ops).length + 1 := by simp
      rw [hlb]
      have hstep := dpv_col_step (spokenOf ops) (correctOf ops ++ [c])
        (spokenOf ops).length (correctOf ops).length (by simp)
      have hcongr : dpv (spokenOf ops) (correctOf ops ++ [c])
          (spokenOf ops).length (correctOf ops).length =
          dpv (spokenOf ops) (correctOf ops)
            (spokenOf ops).length (correctOf ops).length :=
        dpv_congr_take ((spokenOf ops).length + (correctOf ops).length)
          _ _ _ _ _ _ rfl le_rfl le_rfl (by simp) le_rfl
          rfl ((List.take_left _ _).trans (List.take_length _).symm)
      have hcost : alignCost [AlignOp.del c] = 1 := rfl
      rw [hcongr] at hstep
      omega

/-- C1: for every pair of token sequences a (spoken) and b (correct),
the alignment returned by `align a b` has cost — number of non-Match ops,
each of Substitution/Insertion/Deletion counting 1 and Match counting 0 —
equal to the Levenshtein edit distance between a and b under unit costs,
i.e. its cost is the least cost over all valid alignments of a and b. -/
theorem align_cost_is_levenshtein (a b : List String) :
    IsLeast {c : Nat | ∃ ops, IsAlignment ops a b ∧ alignCost ops = c}
      (alignCost (align a b)) := by
  constructor
  · exact ⟨align a b, align_isAlignment a b, rfl⟩
  · rintro c ⟨ops, hops, rfl⟩
    rw [align_cost_eq_dpv]
    exact dpv_le_alignCost ops a b hops

/-- C2: the ordered op list returned by `align a b` is lossless: the
correct-side tokens of Match/Substitution/Deletion ops, in order,
reconstruct exactly b, and the spoken-side tokens of
Match/Substitution/Insertion ops, in order, reconstruct exactly a. -/
theorem align_reconstructs (a b : List String) :
    spokenOf (align a b) = a ∧ correctOf (align a b) = b :=
  ⟨(align_isAlignment a b).1, (align_isAlignment a b).2.1⟩

/-- Word characters of the JS `\w` class: ASCII letters, digits, underscore. -/
def isWordChar (c : Char) : Bool := c.isAlphanum || c = '_'

/-- CONTRACTIONS table of `src/lib/compare.ts` (apostrophes written as the
escape `\x27`); each pattern is applied as a global case-preserving
word-boundary (`\b...\b`) replacement on the lowercased text. -/
def CONTRACTIONS : List (String × String) := [
  ("can\x27t", "cannot"), ("won\x27t", "will not"),
  ("i\x27m", "i am"), ("i\x27ll", "i will"),
  ("i\x27d", "i would"), ("i\x27ve", "i have"),
  ("you\x27re", "you are"), ("you\x27ll", "you will"),
  ("you\x27ve", "you have"), ("it\x27s", "it is"),
  ("that\x27s", "that is"), ("don\x27t", "do not"),
  ("didn\x27t", "did not"), ("wasn\x27t", "was not"),
  ("weren\x27t", "were not"), ("couldn\x27t", "could not"),
  ("wouldn\x27t", "would not"), ("shouldn\x27t", "should not"),
  ("he\x27s", "he is"), ("she\x27s", "she is"),
  ("they\x27re", "they are"), ("we\x27re", "we are")]

/-- Word-boundary test between the previous character and a match that
starts with a word character (`none` = start of string). -/
def boundaryOk : Option Char → Bool
  | none => true
  | some c => !isWordChar c

/-- Word-boundary test between a match that ends with a word character
and the following text (empty = end of string). -/
def afterOk : List Char → Bool
  | [] => true
  | c :: _ => !isWordChar c

/-- Global replacement of the word-bounded pattern `pat` by `repl`:
scan left to right, and after each replacement continue right after the
matched text, exactly as JS `String.replace` with a global `\b...\b`
regex; `prev` is the character just before the scan position.  The scan
consumes at least one character per step, so fuel equal to the length of
the remaining text always suffices. -/
def replaceWordAux (pat repl : List Char) : Nat → Option Char → List Char → List Char
  | 0, _, _ => []
  | _ + 1, _, [] => []
  | fuel + 1, prev, c :: cs =>
    if pat ≠ [] ∧ pat.isPrefixOf (c :: cs) ∧ boundaryOk prev = true ∧
        afterOk ((c :: cs).drop pat.length) = true then
      repl ++ replaceWordAux pat repl fuel (some (pat.getLastD c))
        ((c :: cs).drop pat.length)
    else
      c :: replaceWordAux pat repl fuel (some c) cs

/-- JS `toLowerCase`, modelled character by character (ASCII). -/
def toLowerStr (s : String) : String := String.mk (s.data.map Char.toLower)

/-- expandContractions of `src/lib/compare.ts`: lowercase, then apply every
contraction rule in table order. -/
def expandContractions (text : String) : String :=
  CONTRACTIONS.foldl
    (fun r pe => String.mk
      (replaceWordAux pe.1.data pe.2.data r.data.length none r.data))
    (toLowerStr text)

/-- tokenize of `src/lib/compare.ts`: expand contractions, strip every
character that is neither a word character nor whitespace
(`replace(/[^\w\s]/g, '')`), split on whitespace (`split(/\s+/)`) and
drop empty fragments (`filter(Boolean)`). -/
def tokenize (text : String) : List String :=
  let stripped := (expandContractions text).data.filter
    fun c => isWordChar c || c.isWhitespace
  ((stripped.splitOnP fun c => c.isWhitespace).filter (· ≠ [])).map
    fun w => String.mk w

/-- FeedbackResult of `src/types/index.ts`; the optional `hint` field is
never produced by the local evaluator and is omitted from the model. -/
structure FeedbackResult where
  accurate : Bool
  score : Nat
  feedback : String
  corrections : Option String
deriving DecidableEq, Repr

/-- Exact rational model of `Math.round((matchCount / n) * 100)`:
round half up of `100 * matchCount / n`. -/
def roundPct (matchCount n : Nat) : Nat := (200 * matchCount + n) / (2 * n)

/-- Rendered correction string for one op; `match` ops render nothing. -/
def renderOp : AlignOp → Option String
  | .sub s c => some ("said \"" ++ s ++ "\" → correct: \"" ++ c ++ "\"")
  | .del c => some ("missing: \"" ++ c ++ "\"")
  | .ins s => some ("extra: \"" ++ s ++ "\"")
  | .matchOp _ _ => none

/-- Corrections loop of `evaluateLineLocally`: walk the ops in order,
pushing rendered non-match items; when the loop reaches a further op
while 5 items are already collected, push a literal "..." and stop. -/
def collectItems : List AlignOp → List String → List String
  | [], items => items
  | op :: rest, items =>
    if 5 ≤ items.length then items ++ ["..."]
    else
      match renderOp op with
      | some s => collectItems rest (items ++ [s])
      | none => collectItems rest items

/-- evaluateLineLocally of `src/lib/compare.ts`. -/
def evaluateLineLocally (spoken correct : String) : FeedbackResult :=
  let spokenWords := tokenize spoken
  let correctWords := tokenize correct
  if correctWords.length = 0 then ⟨true, 100, "Nothing to check.", none⟩
  else if spokenWords.length = 0 then ⟨false, 0, "No speech detected.", none⟩
  else
    let ops := align spokenWords correctWords
    let matchCount := (ops.filter fun o => o.isMatch).length
    let score := min 100 (roundPct matchCount correctWords.length)
    let accurate := decide (80 ≤ score)
    let feedback :=
      if 95 ≤ score then "Nailed it!"
      else if 80 ≤ score then "Good — just a few words off."
      else if 60 ≤ score then
        "Getting there — you have the idea, but check the exact wording."
      else if 40 ≤ score then
        "Partial — you got part of it. Take another look at the full line."
      else "Not quite — try reading the line again before your next attempt."
    let corrections :=
      if score < 90 then
        let items := collectItems ops []
        if items.length > 0 then some (String.intercalate "; " items) else none
      else none
    ⟨accurate, score, feedback, corrections⟩

/-- C3: for every pair of input strings the FeedbackResult satisfies:
score is a natural number at most 100 (hence an integer in [0, 100]),
accurate is true if and only if score ≥ 80, and the corrections field is
present only when score < 90. -/
theorem evaluateLineLocally_invariants (spoken correct : String) :
    (evaluateLineLocally spoken correct).score ≤ 100 ∧
    ((evaluateLineLocally spoken correct).accurate = true ↔
      80 ≤ (evaluateLineLocally spoken correct).score) ∧
    ((evaluateLineLocally spoken correct).corrections ≠ none →
      (evaluateLineLocally spoken correct).score < 90) := by
  unfold evaluateLineLocally
  dsimp only
  split
  · simp
  · split
    · simp
    · refine ⟨min_le_left _ _, by simp, ?_⟩
      intro hc
      by_contra hscore
      simp only [not_lt] at hscore
      dsimp only at hc hscore
      rw [if_neg (by omega)] at hc
      exact hc rfl

/-- C4: evaluateLineLocally checks edge cases before alignment: a correct
text with zero tokens yields `{accurate: true, score: 100, feedback:
"Nothing to check."}`; a nonempty correct text with zero spoken tokens
yields `{accurate: false, score: 0, feedback: "No speech detected."}`;
in particular on the two boundary inputs of the spec. -/
theorem evaluateLineLocally_edge_cases :
    (∀ spoken correct : String, tokenize correct = [] →
      evaluateLineLocally spoken correct =
        ⟨true, 100, "Nothing to check.", none⟩) ∧
    (∀ spoken correct : String, tokenize correct ≠ [] → tokenize spoken = [] →
      evaluateLineLocally spoken correct =
        ⟨false, 0, "No speech detected.", none⟩) ∧
    evaluateLineLocally "" "To be or not to be" =
      ⟨false, 0, "No speech detected.", none⟩ ∧
    evaluateLineLocally "anything" "" =
      ⟨true, 100, "Nothing to check.", none⟩ := by
  refine ⟨?_, ?_, ?_, ?_⟩
  · intro s c h
    unfold evaluateLineLocally
    rw [h]
    simp
  · intro s c h1 h2
    unfold evaluateLineLocally
    rw [h2]
    rw [if_neg (by simpa [List.length_eq_zero] using h1)]
    simp
  · decide
  · decide

theorem evaluateLineLocally_edge_cases_witness :
    evaluateLineLocally "hello there" "" =
      ⟨true, 100, "Nothing to check.", none⟩ :=
  evaluateLineLocally_edge_cases.1 "hello there" "" (by decide)

/-- True exactly on `sub` alignment ops. -/
def AlignOp.isSub : AlignOp → Bool
  | .sub _ _ => true
  | _ => false

/-- True exactly on `ins` alignment ops. -/
def AlignOp.isIns : AlignOp → Bool
  | .ins _ => true
  | _ => false

/-- True exactly on `del` alignment ops. -/
def AlignOp.isDel : AlignOp → Bool
  | .del _ => true
  | _ => false

theorem length_spokenOf (ops : List AlignOp) :
    (spokenOf ops).length =
      ops.countP AlignOp.isMatch + ops.countP AlignOp.isSub +
        ops.countP AlignOp.isIns := by
  induction ops with
  | nil => rfl
  | cons op rest ih =>
    cases op <;>
      simp [spokenOf, List.filterMap_cons, AlignOp.spokenTok, List.countP_cons,
        AlignOp.isMatch, AlignOp.isSub, AlignOp.isIns, spokenOf] at ih ⊢ <;>
      omega

theorem length_correctOf (ops : List AlignOp) :
    (correctOf ops).length =
      ops.countP AlignOp.isMatch + ops.countP AlignOp.isSub +
        ops.countP AlignOp.isDel := by
  induction ops with
  | nil => rfl
  | cons op rest ih =>
    cases op <;>
      simp [correctOf, List.filterMap_cons, AlignOp.correctTok, List.countP_cons,
        AlignOp.isMatch, AlignOp.isSub, AlignOp.isDel, correctOf] at ih ⊢ <;>
      omega

theorem alignCost_eq_counts (ops : List AlignOp) :
    alignCost ops =
      ops.countP AlignOp.isSub + ops.countP AlignOp.isIns +
        ops.countP AlignOp.isDel := by
  induction ops with
  | nil => rfl
  | cons op rest ih =>
    cases op <;>
      simp [alignCost, List.filter_cons, List.countP_cons, AlignOp.isMatch,
        AlignOp.isSub, AlignOp.isIns, AlignOp.isDel] at ih ⊢ <;>
      omega

theorem matchCount_eq_countP (ops : List AlignOp) :
    (ops.filter fun o => o.isMatch).length = ops.countP AlignOp.isMatch := by
  rw [List.countP_eq_length_filter]

/-- In the main branch of evaluateLineLocally the score is the clamped
rounded match fraction. -/
theorem evaluateLineLocally_score (spoken correct : String)
    (h1 : tokenize correct ≠ []) (h2 : tokenize spoken ≠ []) :
    (evaluateLineLocally spoken correct).score =
      min 100 (roundPct
        ((align (tokenize spoken) (tokenize correct)).filter
          fun o => o.isMatch).length
        (tokenize correct).length) := by
  unfold evaluateLineLocally
  dsimp only
  rw [if_neg (by simpa [List.length_eq_zero] using h1),
    if_neg (by simpa [List.length_eq_zero] using h2)]

/-- In the main branch of evaluateLineLocally the corrections field is
the joined item list when the score is below 90 and items exist. -/
theorem evaluateLineLocally_corrections_eq (spoken correct : String)
    (h1 : tokenize correct ≠ []) (h2 : tokenize spoken ≠ []) :
    (evaluateLineLocally spoken correct).corrections =
      (if (evaluateLineLocally spoken correct).score < 90 then
        let items := collectItems (align (tokenize spoken) (tokenize correct)) []
        if items.length > 0 then some (String.intercalate "; " items) else none
      else none) := by
  rw [evaluateLineLocally_score spoken correct h1 h2]
  unfold evaluateLineLocally
  dsimp only
  rw [if_neg (by simpa [List.length_eq_zero] using h1),
    if_neg (by simpa [List.length_eq_zero] using h2)]

theorem spokenOf_all_matches (l : List String) :
    spokenOf (l.map fun t => AlignOp.matchOp t t) = l := by
  rw [spokenOf, List.filterMap_map]
  induction l with
  | nil => rfl
  | cons t l ih =>
    simpa [List.filterMap_cons, AlignOp.spokenTok, Function.comp] using ih

theorem correctOf_all_matches (l : List String) :
    correctOf (l.map fun t => AlignOp.matchOp t t) = l := by
  rw [correctOf, List.filterMap_map]
  induction l with
  | nil => rfl
  | cons t l ih =>
    simpa [List.filterMap_cons, AlignOp.correctTok, Function.comp] using ih

theorem alignCost_all_matches (l : List String) :
    alignCost (l.map fun t => AlignOp.matchOp t t) = 0 := by
  induction l with
  | nil => rfl
  | cons t l ih => simpa [alignCost, List.filter_cons, AlignOp.isMatch] using ih

/-- Inserting one word into b gives a token list at Levenshtein distance
exactly 1 from b (at most 1 by the insertion alignment, at least 1 since
the lengths differ). -/
theorem dpv_insert_one (b : List String) (w : String) (i : Nat)
    (hi : i ≤ b.length) :
    dpv (b.take i ++ w :: b.drop i) b (b.take i ++ w :: b.drop i).length
      b.length = 1 := by
  have hlen : (b.take i ++ w :: b.drop i).length = b.length + 1 := by
    simp
    omega
  -- upper bound: the alignment matching everything and inserting w
  have hub : dpv (b.take i ++ w :: b.drop i) b
      (b.take i ++ w :: b.drop i).length b.length ≤ 1 := by
    have hops : IsAlignment
        ((b.take i).map (fun t => AlignOp.matchOp t t) ++ [AlignOp.ins w] ++
          (b.drop i).map (fun t => AlignOp.matchOp t t))
        (b.take i ++ w :: b.drop i) b := by
      refine ⟨?_, ?_, ?_⟩
      · simp only [spokenOf_append, spokenOf_all_matches, spokenOf_ins]
        simp
      · simp only [correctOf_append, correctOf_all_matches, correctOf_ins]
        simp [List.take_append_drop]
      · intro s c hm
        simp only [List.mem_append, List.mem_map, List.mem_singleton] at hm
        rcases hm with (⟨t, -, ht⟩ | h) | ⟨t, -, ht⟩
        · cases ht
          rfl
        · cases h
        · cases ht
          rfl
    have hcost_ops : alignCost
        ((b.take i).map (fun t => AlignOp.matchOp t t) ++ [AlignOp.ins w] ++
          (b.drop i).map (fun t => AlignOp.matchOp t t)) = 1 := by
      rw [alignCost_append, alignCost_append, alignCost_all_matches,
        alignCost_all_matches]
      rfl
    have hdl := dpv_le_alignCost _ _ _ hops
    rw [hcost_ops] at hdl
    exact hdl
  -- lower bound: distance 0 would force equal lengths
  have hlb : dpv (b.take i ++ w :: b.drop i) b
      (b.take i ++ w :: b.drop i).length b.length ≠ 0 := by
    intro h0
    have hcost := align_cost_eq_dpv (b.take i ++ w :: b.drop i) b
    rw [h0] at hcost
    obtain ⟨hsp, hco, -⟩ := align_isAlignment (b.take i ++ w :: b.drop i) b
    have hc := alignCost_eq_counts (align (b.take i ++ w :: b.drop i) b)
    have hls := length_spokenOf (align (b.take i ++ w :: b.drop i) b)
    have hlc := length_correctOf (align (b.take i ++ w :: b.drop i) b)
    rw [hsp] at hls
    rw [hco] at hlc
    rw [hlen] at hls
    omega
  omega

/-- C5 amended: for every correct line of at least 4 words, a spoken
attempt which is the correct line with one extra word (absent from the
line) inserted still scores exactly 100 — the perfect-match score.  The
score counts only matched words against the correct-line length, so an
insertion does not lower it (and hence does not strictly decrease it as
the original claim asserts). -/
theorem evaluateLineLocally_insert_extra_word (spoken correct : String)
    (b : List String) (w : String) (i : Nat)
    (hc : tokenize correct = b)
    (hs : tokenize spoken = b.take i ++ w :: b.drop i)
    (hlen : 4 ≤ b.length) (hi : i ≤ b.length) :
    (evaluateLineLocally spoken correct).score = 100 := by
  have hblen : (b.take i ++ w :: b.drop i).length = b.length + 1 := by
    simp
    omega
  have hbne : b ≠ [] := by
    intro h
    rw [h] at hlen
    simp at hlen
  have hsne : tokenize spoken ≠ [] := by
    rw [hs]
    intro h
    have := congrArg List.length h
    rw [hblen] at this
    simp at this
  rw [evaluateLineLocally_score spoken correct (hc ▸ hbne) hsne, hs, hc]
  have hd1 := dpv_insert_one b w i hi
  have hcost := align_cost_eq_dpv (b.take i ++ w :: b.drop i) b
  rw [hd1] at hcost
  obtain ⟨hsp, hco, -⟩ := align_isAlignment (b.take i ++ w :: b.drop i) b
  have hcnt := alignCost_eq_counts (align (b.take i ++ w :: b.drop i) b)
  have hls := length_spokenOf (align (b.take i ++ w :: b.drop i) b)
  have hlc := length_correctOf (align (b.take i ++ w :: b.drop i) b)
  rw [hsp, hblen] at hls
  rw [hco] at hlc
  have hmc : ((align (b.take i ++ w :: b.drop i) b).filter
      fun o => o.isMatch).length = b.length := by
    rw [matchCount_eq_countP]
    omega
  rw [hmc]
  have h100 : roundPct b.length b.length = 100 := by
    unfold roundPct
    exact Nat.div_eq_of_lt_le (by omega) (by omega)
  rw [h100]
  exact Nat.min_self 100

/-- C5 counterexample: "to be x or not" is "to be or not" (4 words) with
the wrong extra word "x" inserted, yet the score is exactly 100, not
strictly less than 100 as the claim states. -/
theorem evaluateLineLocally_insert_counterexample :
    4 ≤ (tokenize "to be or not").length ∧
    tokenize "to be x or not" =
      (tokenize "to be or not").take 2 ++
        "x" :: (tokenize "to be or not").drop 2 ∧
    "x" ∉ tokenize "to be or not" ∧
    ¬ ((evaluateLineLocally "to be x or not" "to be or not").score < 100) := by
  refine ⟨by decide, by decide, by decide, by decide⟩

theorem evaluateLineLocally_insert_extra_word_witness :
    (evaluateLineLocally "to be x or not to" "to be or not to").score = 100 :=
  evaluateLineLocally_insert_extra_word "to be x or not to" "to be or not to"
    (tokenize "to be or not to") "x" 2 rfl (by decide) (by decide) (by decide)

theorem collectItems_full (ops : List AlignOp) (items : List String)
    (h : 5 ≤ items.length) :
    collectItems ops items = items ++ if ops = [] then [] else ["..."] := by
  cases ops with
  | nil => simp [collectItems]
  | cons op rest =>
    simp only [collectItems]
    rw [if_pos h]
    simp

/-- Closed form of the corrections loop: starting from fewer than 5
collected items, it returns the items, then the next rendered non-match
items up to a total of 5, then the "..." marker exactly when the loop
reaches one more op while 5 items are collected — i.e. when the ops
before the final op already render enough items. -/
theorem collectItems_spec (ops : List AlignOp) :
    ∀ items, items.length < 5 →
      collectItems ops items =
        items ++ (ops.filterMap renderOp).take (5 - items.length) ++
          (if 5 ≤ items.length + ((ops.dropLast).filterMap renderOp).length
            then ["..."] else []) := by
  induction ops with
  | nil =>
    intro items h
    simp only [collectItems, List.dropLast_nil, List.filterMap_nil,
      List.length_nil, Nat.add_zero, List.take_nil]
    rw [if_neg (by omega)]
    simp
  | cons op rest ih =>
    intro items h
    simp only [collectItems]
    rw [if_neg (by omega)]
    cases hro : renderOp op with
    | none =>
      dsimp only
      rw [ih items h, List.filterMap_cons_none hro]
      cases rest with
      | nil =>
        simp only [List.dropLast_nil, List.dropLast_single, List.filterMap_nil]
      | cons r rs =>
        have hdl : (op :: r :: rs).dropLast = op :: (r :: rs).dropLast := rfl
        rw [hdl, List.filterMap_cons_none hro]
    | some s =>
      dsimp only
      rw [List.filterMap_cons_some hro]
      have htake : (s :: List.filterMap renderOp rest).take (5 - items.length) =
          s :: (List.filterMap renderOp rest).take (5 - (items.length + 1)) := by
        have h5 : 5 - items.length = (5 - (items.length + 1)) + 1 := by omega
        rw [h5, List.take_succ_cons]
      rw [htake]
      by_cases h5 : items.length + 1 < 5
      · rw [ih (items ++ [s]) (by simp only [List.length_append,
          List.length_singleton]; omega)]
        simp only [List.length_append, List.length_singleton]
        cases rest with
        | nil =>
          simp only [List.dropLast_nil, List.dropLast_single,
            List.filterMap_nil, List.length_nil, Nat.add_zero, List.take_nil]
          rw [if_neg (by omega), if_neg (by omega)]
          simp
        | cons r rs =>
          have hdl : (op :: r :: rs).dropLast = op :: (r :: rs).dropLast := rfl
          rw [hdl, List.filterMap_cons_some hro]
          simp only [List.length_cons]
          by_cases hc : 5 ≤ items.length + 1 +
              (List.filterMap renderOp (r :: rs).dropLast).length
          · rw [if_pos hc, if_pos (by omega)]
            simp
          · rw [if_neg hc, if_neg (by omega)]
            simp
      · have h4 : items.length = 4 := by omega
        rw [collectItems_full rest (items ++ [s]) (by simp only
          [List.length_append, List.length_singleton]; omega)]
        cases rest with
        | nil =>
          rw [if_pos rfl]
          simp only [List.dropLast_single, List.filterMap_nil,
            List.length_nil, Nat.add_zero, List.take_nil]
          rw [if_neg (by omega)]
        | cons r rs =>
          have hdl : (op :: r :: rs).dropLast = op :: (r :: rs).dropLast := rfl
          rw [hdl, List.filterMap_cons_some hro]
          rw [if_neg (show ¬(r :: rs = []) by simp)]
          simp only [List.length_cons]
          rw [if_pos (by omega)]
          simp [h4]

/-- C6 amended: when evaluateLineLocally computes corrections (both token
lists nonempty, score < 90), it renders the non-match ops in order
(substitution as said "<spoken>" → correct: "<correct>", deletion as
missing: "<correct>", insertion as extra: "<spoken>"), keeps the first 5
rendered items, appends the literal "..." marker if and only if at least
one further op of any kind — including match ops — remained after the op
that produced the 5th item (equivalently, the ops before the final one
already render 5 items), and joins the items with "; ". -/
theorem evaluateLineLocally_corrections_amended (spoken correct : String)
    (h1 : tokenize correct ≠ []) (h2 : tokenize spoken ≠ [])
    (h3 : (evaluateLineLocally spoken correct).score < 90) :
    (evaluateLineLocally spoken correct).corrections =
      (let ops := align (tokenize spoken) (tokenize correct)
       let items := (ops.filterMap renderOp).take 5 ++
         (if 5 ≤ ((ops.dropLast).filterMap renderOp).length
          then ["..."] else [])
       if items.length > 0 then some (String.intercalate "; " items)
       else none) := by
  rw [evaluateLineLocally_corrections_eq spoken correct h1 h2, if_pos h3]
  dsimp only
  rw [collectItems_spec _ [] (by simp)]
  generalize List.filterMap renderOp
    (align (tokenize spoken) (tokenize correct)) = fullItems
  generalize List.filterMap renderOp
    (align (tokenize spoken) (tokenize correct)).dropLast = lastItems
  simp

/-- C6 counterexample: "p q r s t f" against "a b c d e f" aligns as five
substitutions followed by one match, so exactly 5 non-match ops exist and
no further non-match op remains beyond the 5 collected, yet the code
appends the "..." marker (the loop reaches the final match op while 5
items are already collected), contradicting the claim's "if and only if
further non-match ops remained". -/
theorem evaluateLineLocally_corrections_marker_counterexample :
    ((align (tokenize "p q r s t f") (tokenize "a b c d e f")).filter
      fun o => !o.isMatch).length = 5 ∧
    (evaluateLineLocally "p q r s t f" "a b c d e f").corrections =
      some ("said \"p\" → correct: \"a\"; said \"q\" → correct: \"b\"; said \"r\" → correct: \"c\"; said \"s\" → correct: \"d\"; said \"t\" → correct: \"e\"; ...") := by
  exact ⟨by decide, by decide⟩

theorem evaluateLineLocally_corrections_amended_witness :
    (evaluateLineLocally "p1 p2 p3 p4 p5 p6 p7 p8 p9 p10"
        "c1 c2 c3 c4 c5 c6 c7 c8 c9 c10").corrections =
      some ("said \"p1\" → correct: \"c1\"; said \"p2\" → correct: \"c2\"; said \"p3\" → correct: \"c3\"; said \"p4\" → correct: \"c4\"; said \"p5\" → correct: \"c5\"; ...") := by
  rw [evaluateLineLocally_corrections_amended _ _ (by decide) (by decide)
    (by decide)]
  decide

/-- Simple normalizer used by wordSimilarity in
`src/app/script/[id]/practice.tsx`: lowercase, strip characters that are
neither word characters nor whitespace, trim, split on whitespace runs,
drop empty fragments — and, unlike `tokenize`, no contraction
expansion. -/
def normalize (s : String) : List String :=
  let stripped := (toLowerStr s).data.filter
    fun c => isWordChar c || c.isWhitespace
  let trimmed :=
    ((stripped.dropWhile fun c => c.isWhitespace).reverse.dropWhile
      fun c => c.isWhitespace).reverse
  ((trimmed.splitOnP fun c => c.isWhitespace).filter (· ≠ [])).map
    fun w => String.mk w

/-- wordSimilarity of `src/app/script/[id]/practice.tsx`; the JS float is
modelled as an exact rational.  Membership in the JS `Set` of spoken
words coincides with membership in the spoken word list, so the
deduplicated set is modelled by list membership. -/
def wordSimilarity (spoken correct : String) : ℚ :=
  let spokenWords := normalize spoken
  let correctWords := normalize correct
  if correctWords.length = 0 then 1
  else if spokenWords.length = 0 then 0
  else ((correctWords.filter fun w => spokenWords.contains w).length : ℚ) /
    (correctWords.length : ℚ)

/-- pickBestAlternative of `src/app/script/[id]/practice.tsx`:
`alternatives[0] ?? ''` is modelled by `headD` with default "", and
`Array.reduce` without an initial value by a fold over the tail starting
from the head. -/
def pickBestAlternative (alternatives : List String)
    (correctText : String) : String :=
  if alternatives.length ≤ 1 then alternatives.headD ""
  else
    match alternatives with
    | [] => ""
    | a :: rest =>
      rest.foldl (fun best alt =>
        if wordSimilarity alt correctText > wordSimilarity best correctText
        then alt else best) a

/-- C7: wordSimilarity returns 1 when the correct text normalizes to no
tokens, 0 when the correct tokens are nonempty but the spoken text
normalizes to none, and otherwise the number of correct-line tokens
(with repetition) found among the spoken tokens divided by the number of
correct-line tokens; the result always lies in [0, 1]. -/
theorem wordSimilarity_spec (spoken correct : String) :
    (normalize correct = [] → wordSimilarity spoken correct = 1) ∧
    (normalize correct ≠ [] → normalize spoken = [] →
      wordSimilarity spoken correct = 0) ∧
    (normalize correct ≠ [] → normalize spoken ≠ [] →
      wordSimilarity spoken correct =
        (((normalize correct).filter
            fun w => (normalize spoken).contains w).length : ℚ) /
          ((normalize correct).length : ℚ)) ∧
    0 ≤ wordSimilarity spoken correct ∧ wordSimilarity spoken correct ≤ 1 := by
  unfold wordSimilarity
  dsimp only
  by_cases hc : (normalize correct).length = 0
  · rw [if_pos hc]
    rw [List.length_eq_zero] at hc
    exact ⟨fun _ => rfl, fun h _ => absurd hc h, fun h _ => absurd hc h,
      by norm_num, by norm_num⟩
  · rw [if_neg hc]
    rw [List.length_eq_zero] at hc
    by_cases hs : (normalize spoken).length = 0
    · rw [if_pos hs]
      rw [List.length_eq_zero] at hs
      exact ⟨fun h => absurd h hc, fun _ _ => rfl,
        fun _ h => absurd hs h, by norm_num, by norm_num⟩
    · rw [if_neg hs]
      rw [List.length_eq_zero] at hs
      have hlen : 0 < (normalize correct).length := List.length_pos.mpr hc
      have hfle : ((normalize correct).filter
          fun w => (normalize spoken).contains w).length ≤
          (normalize correct).length := List.length_filter_le _ _
      refine ⟨fun h => absurd h hc, fun _ h => absurd h hs,
        fun _ _ => rfl, ?_, ?_⟩
      · positivity
      · rw [div_le_one (by exact_mod_cast hlen)]
        exact_mod_cast hfle

theorem wordSimilarity_spec_witness :
    (normalize "" = [] → wordSimilarity "anything" "" = 1) ∧
    (normalize "" ≠ [] → normalize "anything" = [] →
      wordSimilarity "anything" "" = 0) ∧
    (normalize "" ≠ [] → normalize "anything" ≠ [] →
      wordSimilarity "anything" "" =
        (((normalize "").filter
            fun w => (normalize "anything").contains w).length : ℚ) /
          ((normalize "").length : ℚ)) ∧
    0 ≤ wordSimilarity "anything" "" ∧ wordSimilarity "anything" "" ≤ 1 :=
  wordSimilarity_spec "anything" ""

/-- Folding the strictly-greater update over a list returns an element
attaining the maximum of f, and every element before its occurrence is
strictly below it: the first maximizer wins ties. -/
theorem foldl_max_first {α : Type} (f : α → ℚ) (l : List α) :
    ∀ a, ∃ pre suf,
      a :: l = pre ++
        (l.foldl (fun best alt => if f alt > f best then alt else best) a)
          :: suf ∧
      (∀ x ∈ pre, f x <
        f (l.foldl (fun best alt => if f alt > f best then alt else best) a)) ∧
      (∀ x ∈ a :: l, f x ≤
        f (l.foldl (fun best alt => if f alt > f best then alt else best) a)) := by
  induction l with
  | nil =>
    intro a
    refine ⟨[], [], rfl, by simp, ?_⟩
    intro x hx
    simp only [List.mem_singleton] at hx
    rw [hx]
    exact le_rfl
  | cons b l ih =>
    intro a
    simp only [List.foldl_cons]
    obtain ⟨pre, suf, heq, hpre, hmax⟩ := ih (if f b > f a then b else a)
    by_cases hab : f b > f a
    · rw [if_pos hab] at heq hpre hmax ⊢
      have hble := hmax b (List.mem_cons_self _ _)
      refine ⟨a :: pre, suf, ?_, ?_, ?_⟩
      · rw [List.cons_append, ← heq]
      · intro x hx
        rcases List.mem_cons.mp hx with hx | hx
        · subst hx
          exact lt_of_lt_of_le hab hble
        · exact hpre x hx
      · intro x hx
        rcases List.mem_cons.mp hx with hx | hx
        · subst hx
          exact le_of_lt (lt_of_lt_of_le hab hble)
        · exact hmax x hx
    · rw [if_neg hab] at heq hpre hmax ⊢
      have hba : f b ≤ f a := not_lt.mp hab
      cases pre with
      | nil =>
        rw [List.nil_append] at heq
        injection heq with h1 h2
        refine ⟨[], b :: l, ?_, by simp, ?_⟩
        · rw [List.nil_append, ← h1]
        · intro x hx
          rcases List.mem_cons.mp hx with hx | hx
          · subst hx
            exact le_of_eq (congrArg f h1)
          · rcases List.mem_cons.mp hx with hx | hx
            · subst hx
              rw [← h1]
              exact hba
            · exact hmax x (List.mem_cons_of_mem _ hx)
      | cons a2 pre2 =>
        rw [List.cons_append] at heq
        injection heq with h1 h2
        have hapre : f a <
            f (l.foldl (fun best alt => if f alt > f best then alt else best) a) := by
          have := hpre a2 (List.mem_cons_self _ _)
          rw [← h1] at this
          exact this
        refine ⟨a :: b :: pre2, suf, ?_, ?_, ?_⟩
        · rw [List.cons_append, List.cons_append, ← h2]
        · intro x hx
          rcases List.mem_cons.mp hx with hx | hx
          · subst hx
            exact hapre
          · rcases List.mem_cons.mp hx with hx | hx
            · subst hx
              exact lt_of_le_of_lt hba hapre
            · exact hpre x (List.mem_cons_of_mem _ hx)
        · intro x hx
          rcases List.mem_cons.mp hx with hx | hx
          · subst hx
            exact le_of_lt hapre
          · rcases List.mem_cons.mp hx with hx | hx
            · subst hx
              exact le_trans hba (le_of_lt hapre)
            · exact hmax x (List.mem_cons_of_mem _ hx)

/-- C8: for every nonempty candidate list, pickBestAlternative returns a
candidate maximizing wordSimilarity against the correct text; on ties
the earliest-seen candidate wins (every candidate placed before the
returned occurrence is strictly worse, because strict greater-than is
used to replace the current best); a sole candidate is returned as is. -/
theorem pickBestAlternative_spec (alternatives : List String)
    (correctText : String) (h : alternatives ≠ []) :
    (∃ pre suf,
      alternatives = pre ++
        pickBestAlternative alternatives correctText :: suf ∧
      ∀ x ∈ pre, wordSimilarity x correctText <
        wordSimilarity (pickBestAlternative alternatives correctText)
          correctText) ∧
    (∀ x ∈ alternatives, wordSimilarity x correctText ≤
      wordSimilarity (pickBestAlternative alternatives correctText)
        correctText) ∧
    (∀ y, alternatives = [y] →
      pickBestAlternative alternatives correctText = y) := by
  match alternatives, h with
  | [], h => exact absurd rfl h
  | [a], _ =>
    have hpick : pickBestAlternative [a] correctText = a := rfl
    rw [hpick]
    refine ⟨⟨[], [], rfl, by simp⟩, ?_, ?_⟩
    · intro x hx
      simp only [List.mem_singleton] at hx
      rw [hx]
    · intro y hy
      simpa using hy
  | a :: b :: rest, _ =>
    have hlen : ¬((a :: b :: rest).length ≤ 1) := by simp
    have hpick : pickBestAlternative (a :: b :: rest) correctText =
        (b :: rest).foldl (fun best alt =>
          if wordSimilarity alt correctText > wordSimilarity best correctText
          then alt else best) a := by
      unfold pickBestAlternative
      rw [if_neg hlen]
    rw [hpick]
    obtain ⟨pre, suf, heq, hpre, hmax⟩ :=
      foldl_max_first (fun s => wordSimilarity s correctText) (b :: rest) a
    refine ⟨⟨pre, suf, heq, hpre⟩, hmax, ?_⟩
    intro y hy
    simp at hy

theorem pickBestAlternative_spec_witness :
    (∃ pre suf,
      ["to be"] = pre ++ pickBestAlternative ["to be"] "to be" :: suf ∧
      ∀ x ∈ pre, wordSimilarity x "to be" <
        wordSimilarity (pickBestAlternative ["to be"] "to be") "to be") ∧
    (∀ x ∈ ["to be"], wordSimilarity x "to be" ≤
      wordSimilarity (pickBestAlternative ["to be"] "to be") "to be") ∧
    (∀ y, ["to be"] = [y] → pickBestAlternative ["to be"] "to be" = y) :=
  pickBestAlternative_spec ["to be"] "to be" (by decide)

/-- C10: pickBestAlternative called with an empty list of alternatives
returns the empty string (for every correct text) instead of failing:
`alternatives[0] ?? ''` evaluates to the empty string. -/
theorem pickBestAlternative_nil (correctText : String) :
    pickBestAlternative [] correctText = "" := rfl


/-- Sentence-ending punctuation class `[.!?]`. -/
def isPunc (c : Char) : Bool := c = '.' || c = '!' || c = '?'

/-- Lookahead class `[A-Z"']` of the sentence-splitting regex. -/
def isCapQuote (c : Char) : Bool :=
  ('A' ≤ c && c ≤ 'Z') || c = '"' || c = '\x27'

/-- Matches the separator regex `([.!?]+)\s+(?=[A-Z"'])` at the start of
cs: a maximal run of sentence punctuation, a maximal run of whitespace,
then a capital letter or quote (looked ahead, not consumed).  Returns
the captured punctuation run and the number of characters consumed.
Greedy matching needs no backtracking here: giving back punctuation
characters leaves punctuation (not whitespace) next, and giving back
whitespace leaves whitespace (not a capital) at the lookahead. -/
def matchSep (cs : List Char) : Option (List Char × Nat) :=
  let p := cs.takeWhile isPunc
  if p = [] then none
  else
    let r1 := cs.drop p.length
    let w := r1.takeWhile fun c => c.isWhitespace
    if w = [] then none
    else
      match r1.drop w.length with
      | [] => none
      | c :: _ => if isCapQuote c then some (p, p.length + w.length) else none

/-- The capture-group split of `splitIntoChunks` combined with its
reassembly loop: each matched separator ends the current piece with the
captured punctuation attached, and scanning resumes after the consumed
whitespace.  `cur` holds the characters of the current piece in reverse;
every step consumes at least one character, so fuel equal to the length
of the remaining text suffices. -/
def chunkScanAux : Nat → List Char → List Char → List (List Char)
  | _, [], cur => [cur.reverse]
  | 0, _ :: _, cur => [cur.reverse]
  | fuel + 1, c :: cs, cur =>
    match matchSep (c :: cs) with
    | some (p, n) => (cur.reverse ++ p) :: chunkScanAux fuel ((c :: cs).drop n) []
    | none => chunkScanAux fuel cs (c :: cur)

/-- JS `String.trim` over the character list. -/
def trimChars (l : List Char) : List Char :=
  ((l.dropWhile fun c => c.isWhitespace).reverse.dropWhile
    fun c => c.isWhitespace).reverse

/-- The primary sentence-boundary pieces of `splitIntoChunks`, trimmed
and with empty pieces dropped. -/
def sentencePieces (text : String) : List String :=
  ((chunkScanAux text.data.length text.data []).map
    fun p => String.mk (trimChars p)).filter (· ≠ "")

/-- Scanner of the fallback split on `/[,;]\s*/` of `splitIntoChunks`. -/
def fbScanAux : Nat → List Char → List Char → List (List Char)
  | _, [], cur => [cur.reverse]
  | 0, _ :: _, cur => [cur.reverse]
  | fuel + 1, c :: cs, cur =>
    if c = ',' ∨ c = ';' then
      cur.reverse :: fbScanAux fuel (cs.dropWhile fun ch => ch.isWhitespace) []
    else
      fbScanAux fuel cs (c :: cur)

/-- Comma/semicolon fallback pieces of `splitIntoChunks`, trimmed and
with empty pieces dropped. -/
def commaPieces (text : String) : List String :=
  ((fbScanAux text.data.length text.data []).map
    fun p => String.mk (trimChars p)).filter (· ≠ "")

/-- JS `text.trim().split(/\s+/).length`: 1 for whitespace-only text
(splitting the empty string yields one empty field), otherwise the
number of maximal non-whitespace runs. -/
def jsWordCount (text : String) : Nat :=
  let t := trimChars text.data
  if t = [] then 1
  else ((t.splitOnP fun c => c.isWhitespace).filter (· ≠ [])).length

/-- splitIntoChunks of `src/lib/compare.ts`. -/
def splitIntoChunks (text : String) : List String :=
  if 2 ≤ (sentencePieces text).length then sentencePieces text
  else if 15 ≤ jsWordCount text ∧ 2 ≤ (commaPieces text).length then
    commaPieces text
  else [text]

/-- isChunkable of `src/lib/compare.ts`. -/
def isChunkable (text : String) : Bool :=
  2 ≤ (splitIntoChunks text).length

/-- needsPunctuationTip of `src/lib/compare.ts`: long line (15 or more
words) without any sentence-ending punctuation. -/
def needsPunctuationTip (text : String) : Bool :=
  15 ≤ jsWordCount text && !(text.data.any isPunc)

/-- C9: splitIntoChunks first splits at sentence boundaries (runs of
'.', '!' or '?' followed by whitespace and a capital letter or quote),
keeping the punctuation attached to the preceding chunk, and returns
those pieces when at least 2 nonempty ones result; otherwise, when the
text has at least 15 whitespace-delimited words and the comma/semicolon
fallback yields at least 2 pieces, it returns the fallback; otherwise
the original text as a single-element sequence — so the result is
always nonempty; in particular on "Go now. Don't look back." it
returns ["Go now.", "Don't look back."]. -/
theorem splitIntoChunks_spec :
    (∀ text : String, splitIntoChunks text ≠ []) ∧
    (∀ text : String,
      (2 ≤ (sentencePieces text).length →
        splitIntoChunks text = sentencePieces text) ∧
      ((sentencePieces text).length < 2 → 15 ≤ jsWordCount text →
        2 ≤ (commaPieces text).length →
        splitIntoChunks text = commaPieces text) ∧
      ((sentencePieces text).length < 2 →
        (jsWordCount text < 15 ∨ (commaPieces text).length < 2) →
        splitIntoChunks text = [text])) ∧
    splitIntoChunks "Go now. Don\x27t look back." =
      ["Go now.", "Don\x27t look back."] := by
  refine ⟨?_, ?_, by decide⟩
  · intro text
    unfold splitIntoChunks
    split
    · intro h
      rename_i hlen
      rw [h] at hlen
      simp at hlen
    · split
      · intro h
        rename_i hcond
        rw [h] at hcond
        simp at hcond
      · simp
  · intro text
    refine ⟨?_, ?_, ?_⟩
    · intro h
      unfold splitIntoChunks
      rw [if_pos h]
    · intro h1 h2 h3
      unfold splitIntoChunks
      rw [if_neg (by omega), if_pos ⟨h2, h3⟩]
    · intro h1 h2
      unfold splitIntoChunks
      rw [if_neg (by omega), if_neg (by rintro ⟨ha, hb⟩; omega)]

theorem splitIntoChunks_spec_witness : splitIntoChunks "hello" = ["hello"] :=
  (splitIntoChunks_spec.2.1 "hello").2.2 (by decide) (by decide)

end OffBook
